import Mathlib

/-!
Verification of the passcore password-scoring library.

The Rust sources (`src/lib.rs`, `src/score.rs`) are shallowly embedded below.
Passwords and corpus entries are represented as `List Char` (Rust iterates
over `char`s); where the Rust code uses the *byte* length of a string
(`str::len`), the embedding computes the UTF-8 byte length explicitly via
`Char.utf8Size`, so the byte/character distinction of the source is preserved.

The Rust standard-library character classifiers (`char::is_lowercase`,
`char::is_uppercase`, `char::is_numeric`, `char::is_whitespace`,
`str::to_lowercase`) are modelled by finite tables that are faithful to the
Rust behaviour on the code points appearing in this development: the ASCII
range, U+00E9 (é, a lowercase letter, 2 UTF-8 bytes), and U+00BC (¼, a
Unicode numeric character that is not a decimal digit).

The bundled corpus file `data/100k-most-used-passwords-NCSC.txt` is not part
of the sources; `score_penalties` and `score` are therefore parametrised by
the corpus (a list of `PasswordEntry`, built from raw lines by `mkEntry`
exactly as the `PASSWORD_DATA` initialiser does), and corpus-dependent facts
are settled for an arbitrary corpus, instantiated where needed with entries
the specification fixes (for example, that the corpus contains "password").
-/

namespace Passcore

/-- Model of Rust `char::is_whitespace`, faithful on the code points used in
this development (the ASCII whitespace characters plus U+0085 and U+00A0). -/
def rustIsWhitespace (c : Char) : Bool :=
  [' ', '\t', '\n', '\r', '\x0b', '\x0c', '\x85', '\xa0'].contains c

/-- Uppercase/lowercase pairs of the modelled character domain (the ASCII
letters); models the Rust uppercase table on that domain. -/
def upperLower : List (Char × Char) :=
  [('A', 'a'), ('B', 'b'), ('C', 'c'), ('D', 'd'), ('E', 'e'), ('F', 'f'),
   ('G', 'g'), ('H', 'h'), ('I', 'i'), ('J', 'j'), ('K', 'k'), ('L', 'l'),
   ('M', 'm'), ('N', 'n'), ('O', 'o'), ('P', 'p'), ('Q', 'q'), ('R', 'r'),
   ('S', 's'), ('T', 't'), ('U', 'u'), ('V', 'v'), ('W', 'w'), ('X', 'x'),
   ('Y', 'y'), ('Z', 'z')]

/-- Model of Rust `char::is_uppercase` on the modelled domain. -/
def rustIsUppercase (c : Char) : Bool :=
  upperLower.any (fun p => c == p.1)

/-- Model of the per-character action of Rust `str::to_lowercase` on the
modelled domain (each modelled character lowercases to a single character). -/
def rustToLowerChar (c : Char) : Char :=
  (upperLower.lookup c).getD c

/-- Model of Rust `char::is_lowercase` on the modelled domain: the ASCII
lowercase letters together with U+00E9 (é), which Rust classifies as
lowercase. -/
def rustIsLowercase (c : Char) : Bool :=
  "abcdefghijklmnopqrstuvwxyzé".toList.contains c

/-- Model of Rust `char::is_numeric` (Unicode general categories Nd, Nl, No)
on the modelled domain: the ASCII decimal digits together with U+00BC (¼),
which is in category No and hence Rust-numeric without being a decimal
digit. -/
def rustIsNumeric (c : Char) : Bool :=
  "0123456789¼".toList.contains c

/-- UTF-8 byte length of a string, as computed by Rust `str::len`. -/
def byteLen (s : List Char) : Nat :=
  (s.map Char.utf8Size).sum

/-- Model of Rust `str::trim`: drop whitespace from both ends. -/
def rustTrim (s : List Char) : List Char :=
  (((s.dropWhile rustIsWhitespace).reverse.dropWhile rustIsWhitespace)).reverse

/-- Embeds the `needs_trim` test of `score_penalties` (`src/score.rs`):
`password.starts_with(char::is_whitespace) || password.ends_with(char::is_whitespace)`. -/
def needsTrim (s : List Char) : Bool :=
  s.head?.any rustIsWhitespace || s.getLast?.any rustIsWhitespace

/-- Embeds the input normalisation of `score_penalties` (`src/score.rs`):
trim only when boundary whitespace is present, lowercase only when an
uppercase character is present. -/
def normalize (password : List Char) : List Char :=
  let trimmed := if needsTrim password then rustTrim password else password
  if trimmed.any rustIsUppercase then trimmed.map rustToLowerChar else trimmed

/-- Embeds `struct PasswordEntry` of `src/score.rs`. -/
structure PasswordEntry where
  password : List Char
  len : Nat
  first : Option Char
  last : Option Char
deriving DecidableEq, Repr

/-- Embeds the per-line construction of the `PASSWORD_DATA` initialiser
(`src/score.rs`): `line.trim().to_lowercase()` with character count and
first/last characters. -/
def mkEntry (line : List Char) : PasswordEntry :=
  let pw := (rustTrim line).map rustToLowerChar
  { password := pw, len := pw.length, first := pw.head?, last := pw.getLast? }

/-- Embeds the `PASSWORD_DATA` construction (`src/score.rs`) applied to an
arbitrary list of corpus lines (the bundled corpus file is not part of the
sources). -/
def buildData (lines : List (List Char)) : List PasswordEntry :=
  lines.map mkEntry

/-- Embeds the breakpoint arithmetic of `score_length` (`src/score.rs`) as a
function of the character count. -/
def scoreLengthFun (length : Nat) : Nat :=
  let score :=
    if length = 0 then 0
    else if length ≤ 4 then length * 2 + 2
    else if length ≤ 8 then length * 6 + 2
    else if length ≤ 12 then length * 12 + 6
    else if length ≤ 16 then length * 15 + 10
    else if length ≤ 24 then length * 15
    else if length ≤ 39 then length * 5 / 2 + 300
    else 400
  min score 400

/-- Embeds `score_length` (`src/score.rs`): breakpoint table on the character
count, capped at 400. -/
def score_length (password : List Char) : Nat :=
  scoreLengthFun password.length

/-- Embeds the character-class flag loop of `score_variety` (`src/score.rs`),
including the early break once all four flags are set and the guard order
lowercase, uppercase, numeric, symbol. -/
def varietyFlags : List Char → Bool → Bool → Bool → Bool → Bool × Bool × Bool × Bool
  | [], l, u, d, s => (l, u, d, s)
  | c :: cs, l, u, d, s =>
    if l && u && d && s then (l, u, d, s)
    else if rustIsLowercase c then varietyFlags cs true u d s
    else if rustIsUppercase c then varietyFlags cs l true d s
    else if rustIsNumeric c then varietyFlags cs l u true s
    else varietyFlags cs l u d true

/-- Embeds the mapping from the number of character classes to the variety
score in `score_variety` (`src/score.rs`), including the `_ => 0` safety
arm. -/
def varietyTable (types : Nat) : Nat :=
  match types with
  | 0 => 0
  | 1 => 25
  | 2 => 70
  | 3 => 130
  | 4 => 200
  | _ => 0

/-- Embeds `score_variety` (`src/score.rs`). -/
def score_variety (password : List Char) : Nat :=
  let fl := varietyFlags password false false false false
  let types :=
    (if fl.1 then 1 else 0) + (if fl.2.1 then 1 else 0) +
      (if fl.2.2.1 then 1 else 0) + (if fl.2.2.2 then 1 else 0)
  varietyTable types

/-- Number of distinct characters of a string; models the cardinality of the
`HashSet<char>` built by `score_uniqueness` (`src/score.rs`). -/
def distinctCount (s : List Char) : Nat :=
  s.dedup.length

/-- Embeds `score_uniqueness` (`src/score.rs`). The Rust code computes
`set.len() as f32 / password.len() as f32` — the *byte* length of the
password — multiplies by `200.0` and rounds half away from zero; that
floating-point arithmetic is modelled as exact rational arithmetic,
`(400 * distinct + bytes) / (2 * bytes)` being the half-away-from-zero
rounding of `distinct / bytes * 200`. The `f32` computation is exact at the
magnitudes appearing in the theorems below. -/
def score_uniqueness (password : List Char) : Nat :=
  if password = [] then 0
  else (400 * distinctCount password + byteLen password) / (2 * byteLen password)

/-- Embeds the inner row computation of `levenshtein_with_cutoff`
(`src/score.rs`): walking the previous row `v0` and the characters of `b`,
producing the freshly written cells `v1[1..=charcount]`; `prev` is the cell
written immediately before (`v1[j]`). -/
def fillRow (ca : Char) : Nat → List Nat → List Char → List Nat
  | prev, x :: y :: v0rest, cb :: brest =>
    let cost := if ca = cb then 0 else 1
    let cur := min (min (prev + 1) (y + 1)) (x + cost)
    cur :: fillRow ca cur (y :: v0rest) brest
  | _, _, _ => []

/-- Embeds the outer loop of `levenshtein_with_cutoff` (`src/score.rs`).
The scratch vectors have `byteLen b + 1` cells (Rust sizes them by
`b.len()`, the byte length); each row writes cells `0..=b.length` (one per
character) and leaves the remaining cells stale, and the final result is
read at index `byteLen b` — exactly as the Rust code does. -/
def levGo (t : Nat) (b : List Char) : List Char → Nat → List Nat → List Nat → Nat
  | [], _, v0, _ =>
    let result := v0.getD (byteLen b) 0
    if result > t then t + 1 else result
  | ca :: arest, i, v0, v1 =>
    let row := fillRow ca (i + 1) v0 b
    let v1new := (i + 1) :: row ++ v1.drop (b.length + 1)
    let m := row.foldl min (i + 1)
    if m > t then t + 1
    else levGo t b arest (i + 1) v1new v0

/-- Embeds `levenshtein_with_cutoff` (`src/score.rs`): `v0` is initialised to
`0..=b.len()` (byte length) and `v1` to that many zeroes. -/
def levenshtein_with_cutoff (a b : List Char) (threshold : Nat) : Nat :=
  levGo threshold b a 0 (List.range (byteLen b + 1)) (List.replicate (byteLen b + 1) 0)

/-- Embeds the candidate loop of `score_penalties` (`src/score.rs`): for each
length-surviving candidate the cutoff-2 distance is computed, and the first
candidate whose first or last character matches returns 150 (distance ≤ 2)
or 50 (distance ≤ 4); 200 if the loop completes. -/
def penaltyLoop (first last : Option Char) (normalized : List Char) :
    List PasswordEntry → Nat
  | [] => 200
  | e :: rest =>
    let distance := levenshtein_with_cutoff normalized e.password 2
    if first = e.first ∨ last = e.last then
      if distance ≤ 2 then 150
      else if distance ≤ 4 then 50
      else penaltyLoop first last normalized rest
    else penaltyLoop first last normalized rest

/-- Embeds `score_penalties` (`src/score.rs`), parametrised by the corpus. -/
def score_penalties (data : List PasswordEntry) (password : List Char) : Nat :=
  let normalized := normalize password
  let len := normalized.length
  if data.any (fun e => e.password = normalized) then 0
  else
    let candidates := data.filter (fun e => ((e.len : Int) - (len : Int)).natAbs ≤ 3)
    penaltyLoop normalized.head? normalized.getLast? normalized candidates

/-- Embeds `score` (`src/lib.rs`): the sum of the four sub-scores, with no
further adjustment. -/
def score (data : List PasswordEntry) (password : List Char) : Nat :=
  score_length password + score_variety password + score_uniqueness password +
    score_penalties data password

/-- True character-level Levenshtein distance (unit-cost insertion, deletion
and substitution), the metric named by the specification; Mathlib's
`levenshtein` with the default unit cost structure. -/
def levSpec (a b : List Char) : Nat :=
  levenshtein Levenshtein.defaultCost a b

/-- Length score exactly as the claim words it: the breakpoint table on the
character count with two-sided band conditions, clipped to `[0, 400]`. -/
def claimLengthTable (n : Nat) : Nat :=
  min
    (if n = 0 then 0
     else if 1 ≤ n ∧ n ≤ 4 then n * 2 + 2
     else if 5 ≤ n ∧ n ≤ 8 then n * 6 + 2
     else if 9 ≤ n ∧ n ≤ 12 then n * 12 + 6
     else if 13 ≤ n ∧ n ≤ 16 then n * 15 + 10
     else if 17 ≤ n ∧ n ≤ 24 then n * 15
     else if 25 ≤ n ∧ n ≤ 39 then n * 5 / 2 + 300
     else 400)
    400

/-- Character-class count as the variety claim words it: each character in
exactly one of lowercase, uppercase, decimal digit, or other symbol, with a
character counting as digit iff it is a decimal digit. -/
def claimClassCount (p : List Char) : Nat :=
  (if p.any rustIsLowercase then 1 else 0) +
    (if p.any (fun c => !rustIsLowercase c && rustIsUppercase c) then 1 else 0) +
    (if p.any (fun c => !rustIsLowercase c && !rustIsUppercase c && c.isDigit) then 1 else 0) +
    (if p.any (fun c => !rustIsLowercase c && !rustIsUppercase c && !c.isDigit) then 1 else 0)

/-- Variety score as the claim words it (decimal-digit classification). -/
def claimVariety (p : List Char) : Nat :=
  varietyTable (claimClassCount p)

/-- Character-class count as the code computes it: identical to
`claimClassCount` except that the digit class is Rust `char::is_numeric`. -/
def classCount (p : List Char) : Nat :=
  (if p.any rustIsLowercase then 1 else 0) +
    (if p.any (fun c => !rustIsLowercase c && rustIsUppercase c) then 1 else 0) +
    (if p.any (fun c => !rustIsLowercase c && !rustIsUppercase c && rustIsNumeric c) then 1 else 0) +
    (if p.any (fun c => !rustIsLowercase c && !rustIsUppercase c && !rustIsNumeric c) then 1 else 0)

/-- Uniqueness score as the claim words it: distinct characters over the
*character* count, scaled to `[0, 200]` and rounded to the nearest
integer. -/
def claimUniqueness (p : List Char) : Nat :=
  if p = [] then 0
  else (400 * distinctCount p + p.length) / (2 * p.length)

/-- An entry survives the pre-filters of `score_penalties` for a given
normalised input: its character count differs by at most 3 and its first or
last character matches. -/
def survives (normalized : List Char) (e : PasswordEntry) : Prop :=
  ((e.len : Int) - (normalized.length : Int)).natAbs ≤ 3 ∧
    (normalized.head? = e.first ∨ normalized.getLast? = e.last)

instance (normalized : List Char) (e : PasswordEntry) :
    Decidable (survives normalized e) := by
  unfold survives; infer_instance

/-- Modelled from the spec: the bundled corpus file
`data/100k-most-used-passwords-NCSC.txt` read by the `PASSWORD_DATA`
initialiser is not among the source files; the specification fixes that the
corpus contains the entry "password" (`penalty_subscore("password") == 0`,
"known weak password, exact match"). This list is the corpus fragment those
facts need. -/
def specCorpusLines : List (List Char) :=
  ["password".toList]

/-! Character-model lemmas. -/

theorem lookup_eq_none_iff_any (ps : List (Char × Char)) (c : Char) :
    ps.lookup c = none ↔ ps.any (fun p => c == p.1) = false := by
  induction ps with
  | nil => simp [List.lookup]
  | cons p rest ih =>
    obtain ⟨k, v⟩ := p
    simp only [List.lookup, List.any_cons]
    rcases h : c == k <;> simp [h, ih]

theorem mem_snd_of_lookup {ps : List (Char × Char)} {c v : Char}
    (h : ps.lookup c = some v) : v ∈ ps.map Prod.snd := by
  induction ps with
  | nil => simp [List.lookup] at h
  | cons p rest ih =>
    obtain ⟨k, w⟩ := p
    simp only [List.lookup] at h
    rcases hb : c == k with _ | _ <;> rw [hb] at h
    · simpa using Or.inr (ih h)
    · simp only [Option.some.injEq] at h
      simp [h]

theorem mem_fst_of_lookup {ps : List (Char × Char)} {c v : Char}
    (h : ps.lookup c = some v) : c ∈ ps.map Prod.fst := by
  induction ps with
  | nil => simp [List.lookup] at h
  | cons p rest ih =>
    obtain ⟨k, w⟩ := p
    simp only [List.lookup] at h
    rcases hb : c == k with _ | _ <;> rw [hb] at h
    · simpa using Or.inr (ih h)
    · simp [beq_iff_eq.1 hb]

theorem upperLower_snd_not_upper :
    ∀ v ∈ upperLower.map Prod.snd, rustIsUppercase v = false := by decide

theorem upperLower_snd_not_ws :
    ∀ v ∈ upperLower.map Prod.snd, rustIsWhitespace v = false := by decide

theorem upperLower_fst_not_ws :
    ∀ k ∈ upperLower.map Prod.fst, rustIsWhitespace k = false := by decide

theorem rustToLowerChar_of_not_upper {c : Char} (h : rustIsUppercase c = false) :
    rustToLowerChar c = c := by
  unfold rustToLowerChar
  rw [(lookup_eq_none_iff_any upperLower c).2 h]
  rfl

theorem not_upper_rustToLowerChar (c : Char) :
    rustIsUppercase (rustToLowerChar c) = false := by
  unfold rustToLowerChar
  cases h : upperLower.lookup c with
  | none =>
    simp only [Option.getD_none]
    exact (lookup_eq_none_iff_any upperLower c).1 h
  | some v =>
    simp only [Option.getD_some]
    exact upperLower_snd_not_upper v (mem_snd_of_lookup h)

theorem ws_rustToLowerChar (c : Char) :
    rustIsWhitespace (rustToLowerChar c) = rustIsWhitespace c := by
  unfold rustToLowerChar
  cases h : upperLower.lookup c with
  | none => simp
  | some v =>
    simp only [Option.getD_some]
    rw [upperLower_snd_not_ws v (mem_snd_of_lookup h),
      upperLower_fst_not_ws c (mem_fst_of_lookup h)]

/-! Trim and normalisation lemmas. -/

theorem head?_dropWhile_any_false (p : Char → Bool) (l : List Char) :
    ((l.dropWhile p).head?.any p) = false := by
  induction l with
  | nil => rfl
  | cons c cs ih =>
    by_cases h : p c <;> simp [List.dropWhile_cons, h, ih]

theorem dropWhile_eq_self_of_head {p : Char → Bool} {l : List Char}
    (h : l.head?.any p = false) : l.dropWhile p = l := by
  cases l with
  | nil => rfl
  | cons c cs =>
    simp only [List.head?_cons, Option.any_some] at h
    simp [List.dropWhile_cons, h]

theorem rustTrim_eq_self {l : List Char} (h : needsTrim l = false) : rustTrim l = l := by
  unfold needsTrim at h
  rw [Bool.or_eq_false_iff] at h
  unfold rustTrim
  rw [dropWhile_eq_self_of_head h.1,
    dropWhile_eq_self_of_head (by rw [List.head?_reverse]; exact h.2),
    List.reverse_reverse]

theorem rustTrim_getLast (l : List Char) :
    (rustTrim l).getLast?.any rustIsWhitespace = false := by
  unfold rustTrim
  rw [List.getLast?_reverse]
  exact head?_dropWhile_any_false _ _

theorem rustTrim_head (l : List Char) :
    (rustTrim l).head?.any rustIsWhitespace = false := by
  unfold rustTrim
  rw [List.head?_reverse]
  set q := l.dropWhile rustIsWhitespace with hq
  set m := q.reverse.dropWhile rustIsWhitespace with hm
  by_cases hnil : m = []
  · simp [hnil]
  · obtain ⟨t, ht⟩ := List.dropWhile_suffix (l := q.reverse) (p := rustIsWhitespace)
    have h1 : m.getLast? = q.reverse.getLast? := by
      rw [← ht, List.getLast?_append_of_ne_nil _ hnil]
    rw [h1, List.getLast?_reverse]
    exact head?_dropWhile_any_false _ _

theorem map_toLower_eq_self {l : List Char} (h : l.any rustIsUppercase = false) :
    l.map rustToLowerChar = l := by
  induction l with
  | nil => rfl
  | cons c cs ih =>
    rw [List.any_cons, Bool.or_eq_false_iff] at h
    simp [rustToLowerChar_of_not_upper h.1, ih h.2]

theorem normalize_eq_lower_trim (p : List Char) :
    normalize p = (rustTrim p).map rustToLowerChar := by
  unfold normalize
  have htrim : (if needsTrim p then rustTrim p else p) = rustTrim p := by
    split
    · rfl
    · next h => exact (rustTrim_eq_self (Bool.of_not_eq_true h)).symm
  rw [htrim]
  by_cases h : (rustTrim p).any rustIsUppercase = true
  · simp [h]
  · have hf : (rustTrim p).any rustIsUppercase = false := Bool.of_not_eq_true h
    simp [hf, map_toLower_eq_self hf]

theorem normalize_lower_trim_fixed (p : List Char) :
    normalize ((rustTrim p).map rustToLowerChar) = (rustTrim p).map rustToLowerChar := by
  have hhead : ((rustTrim p).map rustToLowerChar).head?.any rustIsWhitespace = false := by
    rw [List.head?_map]
    cases h : (rustTrim p).head? with
    | none => rfl
    | some c =>
      have := rustTrim_head p
      rw [h, Option.any_some] at this
      simp [ws_rustToLowerChar, this]
  have hlast : ((rustTrim p).map rustToLowerChar).getLast?.any rustIsWhitespace = false := by
    rw [List.getLast?_map]
    cases h : (rustTrim p).getLast? with
    | none => rfl
    | some c =>
      have := rustTrim_getLast p
      rw [h, Option.any_some] at this
      simp [ws_rustToLowerChar, this]
  have hup : ((rustTrim p).map rustToLowerChar).any rustIsUppercase = false := by
    rw [List.any_map]
    have : (rustIsUppercase ∘ rustToLowerChar) = fun _ => false := by
      funext c; exact not_upper_rustToLowerChar c
    rw [this]
    simp
  unfold normalize
  have hnt : needsTrim ((rustTrim p).map rustToLowerChar) = false := by
    unfold needsTrim
    rw [hhead, hlast]
    rfl
  rw [hnt]
  simp [hup]

theorem score_penalties_congr (data : List PasswordEntry) {p q : List Char}
    (h : normalize p = normalize q) :
    score_penalties data p = score_penalties data q := by
  unfold score_penalties
  rw [h]

/-! Penalty-loop lemmas. -/

theorem levGo_le (t : Nat) (b : List Char) :
    ∀ (a : List Char) (i : Nat) (v0 v1 : List Nat), levGo t b a i v0 v1 ≤ t + 1 := by
  intro a
  induction a with
  | nil =>
    intro i v0 v1
    simp only [levGo]
    split <;> omega
  | cons ca arest ih =>
    intro i v0 v1
    simp only [levGo]
    split
    · omega
    · exact ih _ _ _

theorem levenshtein_with_cutoff_le (a b : List Char) (t : Nat) :
    levenshtein_with_cutoff a b t ≤ t + 1 :=
  levGo_le t b a 0 _ _

theorem penaltyLoop_eq (f l : Option Char) (n : List Char) (es : List PasswordEntry) :
    penaltyLoop f l n es =
      (es.find? (fun e => decide (f = e.first ∨ l = e.last))).elim 200
        (fun e => if levenshtein_with_cutoff n e.password 2 ≤ 2 then 150 else 50) := by
  induction es with
  | nil => rfl
  | cons e rest ih =>
    simp only [penaltyLoop, List.find?_cons]
    by_cases hb : f = e.first ∨ l = e.last
    · rw [decide_eq_true hb, if_pos hb]
      simp only [Option.elim_some]
      have hd : levenshtein_with_cutoff n e.password 2 ≤ 3 :=
        levenshtein_with_cutoff_le n e.password 2
      by_cases h2 : levenshtein_with_cutoff n e.password 2 ≤ 2
      · rw [if_pos h2, if_pos h2]
      · rw [if_neg h2, if_neg h2,
          if_pos (show levenshtein_with_cutoff n e.password 2 ≤ 4 by omega)]
    · rw [decide_eq_false hb, if_neg hb]
      exact ih

theorem penaltyLoop_values (f l : Option Char) (n : List Char) (es : List PasswordEntry) :
    penaltyLoop f l n es = 50 ∨ penaltyLoop f l n es = 150 ∨ penaltyLoop f l n es = 200 := by
  rw [penaltyLoop_eq]
  cases es.find? (fun e => decide (f = e.first ∨ l = e.last)) with
  | none => simp
  | some e =>
    by_cases h : levenshtein_with_cutoff n e.password 2 ≤ 2 <;> simp [h]

theorem score_penalties_exact {data : List PasswordEntry} {p : List Char}
    (h : ∃ e ∈ data, e.password = normalize p) : score_penalties data p = 0 := by
  unfold score_penalties
  rw [if_pos]
  rw [List.any_eq_true]
  obtain ⟨e, he, hp⟩ := h
  exact ⟨e, he, by simpa using hp⟩

theorem score_penalties_not_exact {data : List PasswordEntry} {p : List Char}
    (h : ¬ ∃ e ∈ data, e.password = normalize p) :
    score_penalties data p =
      penaltyLoop (normalize p).head? (normalize p).getLast? (normalize p)
        (data.filter fun e =>
          decide (((e.len : Int) - ((normalize p).length : Int)).natAbs ≤ 3)) := by
  unfold score_penalties
  rw [if_neg]
  intro hc
  rw [List.any_eq_true] at hc
  obtain ⟨e, he, hp⟩ := hc
  exact h ⟨e, he, by simpa using hp⟩

theorem score_penalties_distant_iff {data : List PasswordEntry} {p : List Char}
    (h : ¬ ∃ e ∈ data, e.password = normalize p) :
    score_penalties data p = 200 ↔ ∀ e ∈ data, ¬ survives (normalize p) e := by
  rw [score_penalties_not_exact h, penaltyLoop_eq]
  cases hf : (data.filter fun e =>
      decide (((e.len : Int) - ((normalize p).length : Int)).natAbs ≤ 3)).find?
      (fun e => decide ((normalize p).head? = e.first ∨ (normalize p).getLast? = e.last)) with
  | none =>
    rw [List.find?_eq_none] at hf
    simp only [Option.elim_none, true_iff]
    intro e he hs
    obtain ⟨hlen, hbd⟩ := hs
    have hmem : e ∈ data.filter fun e =>
        decide (((e.len : Int) - ((normalize p).length : Int)).natAbs ≤ 3) :=
      List.mem_filter.2 ⟨he, decide_eq_true hlen⟩
    exact hf e hmem (decide_eq_true hbd)
  | some e =>
    have hef0 := List.find?_some hf
    have hef : (normalize p).head? = e.first ∨ (normalize p).getLast? = e.last :=
      of_decide_eq_true hef0
    have hem := List.mem_of_find?_eq_some hf
    rw [List.mem_filter] at hem
    have hsurv : survives (normalize p) e := ⟨of_decide_eq_true hem.2, hef⟩
    simp only [Option.elim_some]
    constructor
    · intro hv
      by_cases h2 : levenshtein_with_cutoff (normalize p) e.password 2 ≤ 2
      · rw [if_pos h2] at hv; omega
      · rw [if_neg h2] at hv; omega
    · intro hall
      exact absurd hsurv (hall e hem.1)

theorem score_penalties_close_band {data : List PasswordEntry} {p : List Char}
    (h50 : score_penalties data p = 50) :
    ∃ e ∈ data, survives (normalize p) e ∧
      2 < levenshtein_with_cutoff (normalize p) e.password 2 := by
  have hne : ¬ ∃ e ∈ data, e.password = normalize p := by
    intro hex
    rw [score_penalties_exact hex] at h50
    omega
  rw [score_penalties_not_exact hne, penaltyLoop_eq] at h50
  cases hf : (data.filter fun e =>
      decide (((e.len : Int) - ((normalize p).length : Int)).natAbs ≤ 3)).find?
      (fun e => decide ((normalize p).head? = e.first ∨ (normalize p).getLast? = e.last)) with
  | none =>
    rw [hf] at h50
    simp at h50
  | some e =>
    rw [hf] at h50
    simp only [Option.elim_some] at h50
    have hef0 := List.find?_some hf
    have hef : (normalize p).head? = e.first ∨ (normalize p).getLast? = e.last :=
      of_decide_eq_true hef0
    have hem := List.mem_of_find?_eq_some hf
    rw [List.mem_filter] at hem
    refine ⟨e, hem.1, ⟨of_decide_eq_true hem.2, hef⟩, ?_⟩
    by_cases h2 : levenshtein_with_cutoff (normalize p) e.password 2 ≤ 2
    · rw [if_pos h2] at h50; omega
    · omega

theorem find?_survives (data : List PasswordEntry) (n : List Char) :
    (data.filter fun e => decide (((e.len : Int) - (n.length : Int)).natAbs ≤ 3)).find?
        (fun e => decide (n.head? = e.first ∨ n.getLast? = e.last)) =
      data.find? (fun e => decide (survives n e)) := by
  rw [List.find?_filter]
  congr 1
  funext a
  refine decide_eq_decide.2 ?_
  constructor
  · rintro ⟨h1, h2⟩
    exact ⟨of_decide_eq_true h1, of_decide_eq_true h2⟩
  · rintro ⟨h1, h2⟩
    exact ⟨decide_eq_true h1, decide_eq_true h2⟩

theorem score_penalties_first_survivor {data : List PasswordEntry} {p : List Char}
    (h : ¬ ∃ e ∈ data, e.password = normalize p) {e : PasswordEntry}
    (hfind : data.find? (fun e => decide (survives (normalize p) e)) = some e) :
    score_penalties data p =
      if levenshtein_with_cutoff (normalize p) e.password 2 ≤ 2 then 150 else 50 := by
  rw [score_penalties_not_exact h, penaltyLoop_eq, find?_survives data (normalize p), hfind,
    Option.elim_some]

/-! Length-score lemmas. -/

theorem scoreLengthFun_of_ge41 {n : Nat} (h : 41 ≤ n) : scoreLengthFun n = 400 := by
  unfold scoreLengthFun
  rw [if_neg (by omega), if_neg (by omega), if_neg (by omega), if_neg (by omega),
    if_neg (by omega), if_neg (by omega), if_neg (by omega)]
  rfl

theorem scoreLengthFun_of_ge40 {n : Nat} (h : 40 ≤ n) : scoreLengthFun n = 400 := by
  rcases Nat.lt_or_ge n 41 with h41 | h41
  · have : n = 40 := by omega
    subst this
    decide
  · exact scoreLengthFun_of_ge41 h41

theorem scoreLengthFun_mono : Monotone scoreLengthFun := by
  apply monotone_nat_of_le_succ
  intro n
  rcases Nat.lt_or_ge n 41 with h | h
  · have hb : ∀ m, m < 41 → scoreLengthFun m ≤ scoreLengthFun (m + 1) := by decide
    exact hb n h
  · rw [scoreLengthFun_of_ge41 h, scoreLengthFun_of_ge41 (by omega)]

theorem scoreLengthFun_eq_claim (n : Nat) : scoreLengthFun n = claimLengthTable n := by
  rcases Nat.lt_or_ge n 41 with h | h
  · have hb : ∀ m, m < 41 → scoreLengthFun m = claimLengthTable m := by decide
    exact hb n h
  · rw [scoreLengthFun_of_ge41 h]
    unfold claimLengthTable
    rw [if_neg (by omega), if_neg (by omega), if_neg (by omega), if_neg (by omega),
      if_neg (by omega), if_neg (by omega), if_neg (by omega)]
    rfl

theorem scoreLengthFun_le400 (n : Nat) : scoreLengthFun n ≤ 400 := by
  unfold scoreLengthFun
  exact Nat.min_le_right _ _

/-! Variety lemmas. -/

theorem varietyFlags_spec :
    ∀ (cs : List Char) (l u d s : Bool),
      varietyFlags cs l u d s =
        (l || cs.any rustIsLowercase,
         u || cs.any (fun c => !rustIsLowercase c && rustIsUppercase c),
         d || cs.any (fun c => !rustIsLowercase c && !rustIsUppercase c && rustIsNumeric c),
         s || cs.any (fun c => !rustIsLowercase c && !rustIsUppercase c && !rustIsNumeric c)) := by
  intro cs
  induction cs with
  | nil => intro l u d s; simp [varietyFlags]
  | cons c cs ih =>
    intro l u d s
    simp only [varietyFlags, List.any_cons]
    by_cases hall : (l && u && d && s) = true
    · rw [if_pos hall]
      have hl : l = true := by simp_all
      have hu : u = true := by simp_all
      have hd : d = true := by simp_all
      have hs : s = true := by simp_all
      subst hl; subst hu; subst hd; subst hs
      simp
    · rw [if_neg hall]
      by_cases h1 : rustIsLowercase c
      · simp [h1, ih]
      · by_cases h2 : rustIsUppercase c
        · simp [h1, h2, ih]
        · by_cases h3 : rustIsNumeric c
          · simp [h1, h2, h3, ih]
          · simp [h1, h2, h3, ih]

theorem score_variety_eq_classCount (p : List Char) :
    score_variety p = varietyTable (classCount p) := by
  unfold score_variety classCount
  rw [varietyFlags_spec]
  simp only [Bool.false_or]

/-! Claim theorems. -/

/-- C1 (counterexample): "password" is a corpus entry and its normalized form
matches that entry exactly, yet `score` returns 250 (50 length + 25 variety +
175 uniqueness + 0 penalty), not 0: the aggregator has no exact-match
override. -/
theorem c1_cex :
    (∃ e ∈ buildData specCorpusLines, e.password = normalize "password".toList) ∧
      score (buildData specCorpusLines) "password".toList = 250 := by
  decide

/-- C1 (amended): an exact corpus match forces the penalty sub-score to 0, and
the total returned by `score` is then the sum of the length, variety and
uniqueness sub-scores — it is not forced to 0. -/
theorem c1_exact_match_total (data : List PasswordEntry) (p : List Char)
    (h : ∃ e ∈ data, e.password = normalize p) :
    score_penalties data p = 0 ∧
      score data p = score_length p + score_variety p + score_uniqueness p := by
  have h0 := score_penalties_exact h
  refine ⟨h0, ?_⟩
  unfold score
  omega

/-- C1 (witness): the amended statement instantiated at the spec-modelled
corpus and the password "password". -/
theorem c1_wit :
    score_penalties (buildData specCorpusLines) "password".toList = 0 ∧
      score (buildData specCorpusLines) "password".toList =
        score_length "password".toList + score_variety "password".toList +
          score_uniqueness "password".toList :=
  c1_exact_match_total (buildData specCorpusLines) "password".toList (by decide)

/-- C2 (counterexample): with corpus line "cdefgz" and input "abz" (no exact
match), the code returns the moderately-close value 50 although the true
Levenshtein distance is 5 > 4: the cutoff-2 computation yields 3, and the
`distance <= 4` test is satisfied by any surviving candidate. -/
theorem c2_cex :
    score_penalties (buildData ["cdefgz".toList]) "abz".toList = 50 ∧
      levSpec "abz".toList "cdefgz".toList = 5 ∧
      ¬ ∃ e ∈ buildData ["cdefgz".toList], e.password = normalize "abz".toList := by
  decide

/-- C2 (amended): when no corpus entry matches exactly, `score_penalties`
returns 200 exactly when no entry survives the length and boundary
pre-filters; otherwise the first surviving candidate (in corpus order)
decides the result: 150 when its cutoff-2 distance value is at most 2, and
50 whenever that value exceeds 2 — so the moderately-close band carries no
upper bound on the true distance, and whenever 50 is returned the first
surviving candidate's cutoff-2 distance exceeds 2. -/
theorem c2_match_bands (data : List PasswordEntry) (p : List Char)
    (h : ¬ ∃ e ∈ data, e.password = normalize p) :
    (score_penalties data p = 200 ↔ ∀ e ∈ data, ¬ survives (normalize p) e) ∧
      (∀ e, data.find? (fun e => decide (survives (normalize p) e)) = some e →
        (levenshtein_with_cutoff (normalize p) e.password 2 ≤ 2 →
          score_penalties data p = 150) ∧
        (2 < levenshtein_with_cutoff (normalize p) e.password 2 →
          score_penalties data p = 50)) ∧
      (score_penalties data p = 50 →
        ∃ e ∈ data, survives (normalize p) e ∧
          2 < levenshtein_with_cutoff (normalize p) e.password 2) := by
  refine ⟨score_penalties_distant_iff h, ?_, fun h50 => score_penalties_close_band h50⟩
  intro e hfind
  constructor
  · intro hd
    rw [score_penalties_first_survivor h hfind, if_pos hd]
  · intro hd
    rw [score_penalties_first_survivor h hfind, if_neg (by omega)]

/-- C2 (witness): the amended statement instantiated at the corpus line "abc"
and the input "abd" (no exact match; the entry "abc" is the first surviving
candidate, its cutoff-2 distance is 1, and the result is 150). -/
theorem c2_wit :
    (score_penalties (buildData ["abc".toList]) "abd".toList = 200 ↔
        ∀ e ∈ buildData ["abc".toList], ¬ survives (normalize "abd".toList) e) ∧
      (∀ e, (buildData ["abc".toList]).find?
            (fun e => decide (survives (normalize "abd".toList) e)) = some e →
        (levenshtein_with_cutoff (normalize "abd".toList) e.password 2 ≤ 2 →
          score_penalties (buildData ["abc".toList]) "abd".toList = 150) ∧
        (2 < levenshtein_with_cutoff (normalize "abd".toList) e.password 2 →
          score_penalties (buildData ["abc".toList]) "abd".toList = 50)) ∧
      (score_penalties (buildData ["abc".toList]) "abd".toList = 50 →
        ∃ e ∈ buildData ["abc".toList], survives (normalize "abd".toList) e ∧
          2 < levenshtein_with_cutoff (normalize "abd".toList) e.password 2) :=
  c2_match_bands (buildData ["abc".toList]) "abd".toList (by decide)

/-- C3 (code bug): `levenshtein_with_cutoff` reads the final result at index
`b.len()` — the UTF-8 *byte* length of `b` — in a scratch row whose cells
beyond the character count are never written. For a = "a", b = "é" and
threshold 2 it returns a stale 0, while the true character-level distance is
1, which is within the cutoff and should have been returned. -/
theorem c3_cutoff_byte_bug :
    levenshtein_with_cutoff ['a'] ['é'] 2 = 0 ∧ levSpec ['a'] ['é'] = 1 := by
  decide

/-- C4 (code bug): `score_uniqueness` divides the distinct-character count by
`password.len()` — the UTF-8 *byte* length. For "éé" (1 distinct character,
2 characters, 4 bytes) the code yields 1/4 of the scale, 50, while the
claimed distinct-over-character-count formula yields 100. -/
theorem c4_uniqueness_byte_bug :
    score_uniqueness ['é', 'é'] = 50 ∧ claimUniqueness ['é', 'é'] = 100 := by
  decide

/-- C5: `score_penalties` always returns one of 0, 50, 150, 200, and returns
0 exactly when the normalized input matches a corpus entry exactly. -/
theorem c5_penalty_values (data : List PasswordEntry) (p : List Char) :
    (score_penalties data p = 0 ∨ score_penalties data p = 50 ∨
        score_penalties data p = 150 ∨ score_penalties data p = 200) ∧
      (score_penalties data p = 0 ↔ ∃ e ∈ data, e.password = normalize p) := by
  by_cases h : ∃ e ∈ data, e.password = normalize p
  · have h0 := score_penalties_exact h
    exact ⟨Or.inl h0, by rw [h0]; simp [h]⟩
  · have hv : score_penalties data p = 50 ∨ score_penalties data p = 150 ∨
        score_penalties data p = 200 := by
      rw [score_penalties_not_exact h]
      exact penaltyLoop_values (normalize p).head? (normalize p).getLast? (normalize p)
        (data.filter fun e =>
          decide (((e.len : Int) - ((normalize p).length : Int)).natAbs ≤ 3))
    refine ⟨Or.inr hv, ?_⟩
    constructor
    · intro h0
      rcases hv with h1 | h1 | h1 <;> omega
    · intro hex
      exact absurd hex h

/-- C5 (witness): the statement instantiated at the corpus line "abc" and the
input "abd" (a close match scoring 150). -/
theorem c5_wit :
    (score_penalties (buildData ["abc".toList]) "abd".toList = 0 ∨
        score_penalties (buildData ["abc".toList]) "abd".toList = 50 ∨
        score_penalties (buildData ["abc".toList]) "abd".toList = 150 ∨
        score_penalties (buildData ["abc".toList]) "abd".toList = 200) ∧
      (score_penalties (buildData ["abc".toList]) "abd".toList = 0 ↔
        ∃ e ∈ buildData ["abc".toList], e.password = normalize "abd".toList) :=
  c5_penalty_values (buildData ["abc".toList]) "abd".toList

/-- C6 (counterexample): U+00BC (¼) is Rust-numeric but not a decimal digit,
so for "1¼" the code sees a single class (both characters numeric) and scores
25, while the claimed decimal-digit classification sees two classes (digit
and symbol) and would score 70. -/
theorem c6_cex :
    score_variety "1¼".toList = 25 ∧ claimVariety "1¼".toList = 70 := by
  decide

/-- C6 (amended): `score_variety` maps the number of distinct character
classes present to the table 0→0, 1→25, 2→70, 3→130, 4→200, with each
character classified by the guard order lowercase, uppercase, then *Unicode
numeric* (`char::is_numeric`, not only decimal digits), else symbol. -/
theorem c6_variety_classes (p : List Char) :
    score_variety p = varietyTable (classCount p) :=
  score_variety_eq_classCount p

/-- C7: penalty matching is performed on the normalized form only:
`score_penalties p` equals `score_penalties` of the trimmed, lowercased form
of `p`, for any corpus. -/
theorem c7_normalized_matching (data : List PasswordEntry) (p : List Char) :
    score_penalties data p = score_penalties data ((rustTrim p).map rustToLowerChar) :=
  score_penalties_congr data
    ((normalize_eq_lower_trim p).trans (normalize_lower_trim_fixed p).symm)

/-- C8: `score_length` equals the claimed breakpoint table applied to the
character count, and is always clipped to at most 400. -/
theorem c8_length_table (p : List Char) :
    score_length p = claimLengthTable p.length ∧ score_length p ≤ 400 :=
  ⟨scoreLengthFun_eq_claim p.length, scoreLengthFun_le400 p.length⟩

/-- C9: `score_length` is monotone in the character count, and is constantly
400 for passwords of 40 or more characters. -/
theorem c9_length_monotone :
    (∀ p q : List Char, p.length ≤ q.length → score_length p ≤ score_length q) ∧
      (∀ p : List Char, 40 ≤ p.length → score_length p = 400) :=
  ⟨fun _ _ h => scoreLengthFun_mono h, fun _ h => scoreLengthFun_of_ge40 h⟩

/-- C9 (witness): monotonicity at "abc" vs "abcd" and the constant value at
40 characters. -/
theorem c9_wit :
    score_length "abc".toList ≤ score_length "abcd".toList ∧
      score_length (List.replicate 40 'a') = 400 :=
  ⟨c9_length_monotone.1 "abc".toList "abcd".toList (by decide),
    c9_length_monotone.2 (List.replicate 40 'a') (by decide)⟩

/-- C10: when no corpus entry normalizes to the empty string, the empty
password is classified distant — `score_penalties` returns 200 (the empty
input's first and last characters are both `none`, so no non-empty entry
passes the boundary pre-filter) — and `score` of the empty password is 200,
the other three sub-scores being 0. -/
theorem c10_empty_password (lines : List (List Char))
    (h : ∀ l ∈ lines, (mkEntry l).password ≠ []) :
    score_penalties (buildData lines) [] = 200 ∧ score (buildData lines) [] = 200 := by
  have hnorm : normalize ([] : List Char) = [] := rfl
  have hne : ¬ ∃ e ∈ buildData lines, e.password = normalize [] := by
    rintro ⟨e, he, hp⟩
    rw [hnorm] at hp
    obtain ⟨l, hl, rfl⟩ := List.mem_map.1 he
    exact h l hl hp
  have h200 : score_penalties (buildData lines) [] = 200 := by
    rw [score_penalties_distant_iff hne]
    intro e he hs
    obtain ⟨l, hl, rfl⟩ := List.mem_map.1 he
    obtain ⟨hlen, hbd⟩ := hs
    rw [hnorm] at hbd
    have hpw := h l hl
    rcases hbd with hb | hb
    · have hb2 : (mkEntry l).password.head? = none := by
        simp only [mkEntry] at hb ⊢
        exact hb.symm
      exact hpw (List.head?_eq_none_iff.1 hb2)
    · have hb2 : (mkEntry l).password.getLast? = none := by
        simp only [mkEntry] at hb ⊢
        exact hb.symm
      exact hpw (List.getLast?_eq_none_iff.1 hb2)
  refine ⟨h200, ?_⟩
  unfold score
  rw [h200]
  decide

/-- C10 (witness): the statement instantiated at the one-line corpus "abc". -/
theorem c10_wit :
    score_penalties (buildData ["abc".toList]) [] = 200 ∧
      score (buildData ["abc".toList]) [] = 200 :=
  c10_empty_password ["abc".toList] (by decide)

end Passcore
